import Mathlib

/-!
Verification of the core transformation pipelines of the `local_ai_ocr`
repository: the LaTeX delimiter balancer (`src/ui/output_panel.py`),
the geometry normalizer and image ingestion (`src/file_handler.py`),
and the PDF page rasterizer zoom policy (`src/file_handler.py`).
-/

namespace LocalAIOCR

/-! ## LaTeX delimiter balancing (`balance_latex_delimiters`) -/

/-- The two commands recognized by the regex `(\\left|\\right)`. -/
inductive Cmd where
  | left
  | right
deriving DecidableEq, Repr

/-- A regex match: start index, end index (exclusive), command. -/
abbrev PosCmd := Nat × Nat × Cmd

/-- The characters of `\left`. -/
def leftTok : List Char := ['\\', 'l', 'e', 'f', 't']

/-- The characters of `\right`. -/
def rightTok : List Char := ['\\', 'r', 'i', 'g', 'h', 't']

/-- The characters of the appended invisible closer `" \right."`. -/
def closerTok : List Char := [' ', '\\', 'r', 'i', 'g', 'h', 't', '.']

/-- `re.finditer(r'(\\left|\\right)', latex)`: all non-overlapping matches of
`\left` / `\right`, scanning left to right, with their spans.  `i` is the
index of the head of the remaining text in the full string. -/
def findCommands : List Char → Nat → List PosCmd
  | '\\' :: 'l' :: 'e' :: 'f' :: 't' :: rest, i =>
      (i, i + 5, Cmd.left) :: findCommands rest (i + 5)
  | '\\' :: 'r' :: 'i' :: 'g' :: 'h' :: 't' :: rest, i =>
      (i, i + 6, Cmd.right) :: findCommands rest (i + 6)
  | _ :: rest, i => findCommands rest (i + 1)
  | [], _ => []

/-- The depth-tracking loop of `balance_latex_delimiters`: returns the list
of match positions marked for removal (`to_remove`) and the final depth
counter (`stack`). -/
def markRemove : List PosCmd → Nat → List Nat × Nat
  | [], stack => ([], stack)
  | (start, _, cmd) :: rest, stack =>
    match cmd with
    | Cmd.left => markRemove rest (stack + 1)
    | Cmd.right =>
      if 0 < stack then
        markRemove rest (stack - 1)
      else
        let r := markRemove rest stack
        (start :: r.1, r.2)

/-- Python slice `l[a:b]`. -/
def slice (l : List Char) (a b : Nat) : List Char := (l.take b).drop a

/-- The rebuild loop of `balance_latex_delimiters`: walks the matches, and at
each match marked for removal appends `latex[last_idx:start]` and jumps
`last_idx` to the end of the removed match. Returns the accumulated string
and the final `last_idx`. -/
def rebuildLoop (latex : List Char) : List PosCmd → List Nat → List Char → Nat →
    List Char × Nat
  | [], _, acc, last => (acc, last)
  | (start, stop, _) :: rest, rm, acc, last =>
    if start ∈ rm then rebuildLoop latex rest rm (acc ++ slice latex last start) stop
    else rebuildLoop latex rest rm acc last

/-- `balance_latex_delimiters` from `src/ui/output_panel.py`: find the
`\left`/`\right` matches, mark unmatched `\right`s for removal, rebuild the
string skipping them, and append one `" \right."` per unit of leftover
depth. -/
def balance_latex_delimiters (latex : List Char) : List Char :=
  let commands := findCommands latex 0
  let rs := markRemove commands 0
  let rb := rebuildLoop latex commands rs.1 [] 0
  let fixed := rb.1 ++ latex.drop rb.2
  if 0 < rs.2 then fixed ++ (List.replicate rs.2 closerTok).flatten else fixed

/-! ### Specification-side reading of the balancing scan

The spec describes the balancer as a single left-to-right pass: a `\left`
increments depth, a `\right` decrements it when positive and is deleted
otherwise, and one closer is appended per unit of leftover depth.  The
following definitions follow the spec's words; they are compared with the
staged implementation above. -/

/-- Spec-side: the text kept by the scan, with `\right` occurrences met at
depth 0 deleted and the surrounding text preserved. -/
def specKept : List Char → Nat → List Char
  | '\\' :: 'l' :: 'e' :: 'f' :: 't' :: rest, d =>
      '\\' :: 'l' :: 'e' :: 'f' :: 't' :: specKept rest (d + 1)
  | '\\' :: 'r' :: 'i' :: 'g' :: 'h' :: 't' :: rest, d =>
      if 0 < d then '\\' :: 'r' :: 'i' :: 'g' :: 'h' :: 't' :: specKept rest (d - 1)
      else specKept rest d
  | c :: rest, d => c :: specKept rest d
  | [], _ => []

/-- Spec-side: the leftover depth after the scan. -/
def specDepth : List Char → Nat → Nat
  | '\\' :: 'l' :: 'e' :: 'f' :: 't' :: rest, d => specDepth rest (d + 1)
  | '\\' :: 'r' :: 'i' :: 'g' :: 'h' :: 't' :: rest, d =>
      if 0 < d then specDepth rest (d - 1) else specDepth rest d
  | _ :: rest, d => specDepth rest d
  | [], d => d

/-- Spec-side: `true` when the scan starting at depth `d` never meets a
`\right` at depth 0 (no orphan `\right`, hence nothing is deleted). -/
def specNoOrphan : List Char → Nat → Bool
  | '\\' :: 'l' :: 'e' :: 'f' :: 't' :: rest, d => specNoOrphan rest (d + 1)
  | '\\' :: 'r' :: 'i' :: 'g' :: 'h' :: 't' :: rest, d =>
      if 0 < d then specNoOrphan rest (d - 1) else false
  | _ :: rest, d => specNoOrphan rest d
  | [], _ => true

/-- Number of `\left` tokens found by the scan. -/
def countLeftTok : List Char → Nat
  | '\\' :: 'l' :: 'e' :: 'f' :: 't' :: rest => countLeftTok rest + 1
  | '\\' :: 'r' :: 'i' :: 'g' :: 'h' :: 't' :: rest => countLeftTok rest
  | _ :: rest => countLeftTok rest
  | [] => 0

/-- Number of `\right` tokens found by the scan. -/
def countRightTok : List Char → Nat
  | '\\' :: 'l' :: 'e' :: 'f' :: 't' :: rest => countRightTok rest
  | '\\' :: 'r' :: 'i' :: 'g' :: 'h' :: 't' :: rest => countRightTok rest + 1
  | _ :: rest => countRightTok rest
  | [] => 0

/-- Whether the text begins with the characters of `\left`. -/
def beginsLeft : List Char → Bool
  | '\\' :: 'l' :: 'e' :: 'f' :: 't' :: _ => true
  | _ => false

/-- Whether the text begins with the characters of `\right`. -/
def beginsRight : List Char → Bool
  | '\\' :: 'r' :: 'i' :: 'g' :: 'h' :: 't' :: _ => true
  | _ => false

/-- The appended closer text for leftover depth `k`. -/
def closers (k : Nat) : List Char := (List.replicate k closerTok).flatten

/-- The rebuilt text followed by the tail of the original text from the final
`last_idx`: this is exactly the `fixed_latex` value of the source. -/
def rebuildOut (latex : List Char) (cmds : List PosCmd) (rm : List Nat)
    (acc : List Char) (last : Nat) : List Char :=
  let rb := rebuildLoop latex cmds rm acc last
  rb.1 ++ latex.drop rb.2

/-- Decidable equality for `Except` results, used to evaluate the model at
concrete inputs. -/
instance {e a : Type} [DecidableEq e] [DecidableEq a] : DecidableEq (Except e a) := fun
  | .ok x, .ok y =>
    if h : x = y then .isTrue (by rw [h]) else .isFalse (by intro hc; injection hc; contradiction)
  | .error x, .error y =>
    if h : x = y then .isTrue (by rw [h]) else .isFalse (by intro hc; injection hc; contradiction)
  | .ok _, .error _ => .isFalse (by intro hc; injection hc)
  | .error _, .ok _ => .isFalse (by intro hc; injection hc)

/-! ## Geometry normalization (`pad_image`, `src/file_handler.py`)

`pad_image` is embedded at the geometry level: the claims concern sizes,
scale factors and offsets, so an image is represented by its dimensions
(and pixel mode where relevant).  Python's float division is modelled by
exact rational division; `int(x)` on the nonnegative values occurring here
is `⌊x⌋`. -/

/-- Failure modes of the geometry normalizer.  The code can raise Python's
`ZeroDivisionError` (at `target_width / original_width`) and Pillow's
`ValueError` from `image.resize` when a computed dimension is 0
(`resizeValue`); `invalidGeometry` is the error the spec asks for and is
never produced. -/
inductive GeomError where
  | zeroDivision
  | resizeValue
  | invalidGeometry
deriving DecidableEq, Repr

/-- The geometry of the value returned by `pad_image`: the canvas created by
`Image.new("RGB", target_size, background_color)`, the resized content
pasted onto it, and the paste offsets. -/
structure Padded where
  canvasWidth : Nat
  canvasHeight : Nat
  contentWidth : Nat
  contentHeight : Nat
  xOffset : Nat
  yOffset : Nat
deriving DecidableEq, Repr

/-- `pad_image` from `src/file_handler.py`: scale = min of the two axis
ratios, new dimensions `int(original * scale)`, canvas of exactly the
target size, centering offsets `(target - new) // 2`.  A zero source
dimension raises `ZeroDivisionError` at the ratio computation, and when a
computed dimension truncates to 0 the `image.resize((new_width,
new_height))` call raises Pillow's `ValueError` ("height and width must
be > 0").  The offsets are nonnegative because `new ≤ target`, so Python's
floor division is `Nat` division here. -/
def pad_image (ow oh tw th : Nat) : Except GeomError Padded :=
  if ow = 0 then .error .zeroDivision
  else if oh = 0 then .error .zeroDivision
  else
    let scale_w : ℚ := (tw : ℚ) / (ow : ℚ)
    let scale_h : ℚ := (th : ℚ) / (oh : ℚ)
    let scale : ℚ := min scale_w scale_h
    let newW : Nat := (⌊(ow : ℚ) * scale⌋).toNat
    let newH : Nat := (⌊(oh : ℚ) * scale⌋).toNat
    if newW = 0 ∨ newH = 0 then .error .resizeValue
    else .ok ⟨tw, th, newW, newH, (tw - newW) / 2, (th - newH) / 2⟩

/-- `config.TARGET_IMAGE_SIZE`. -/
def TARGET_IMAGE_SIZE : Nat × Nat := (1024, 1024)

/-- Pixel modes distinguished by `preprocess_image`.  `P` carries whether the
palette has a transparency entry. -/
inductive Mode where
  | RGB
  | RGBA
  | LA
  | P (transparent : Bool)
  | other
deriving DecidableEq, Repr

/-- An input image, at the geometry level. -/
structure Img where
  width : Nat
  height : Nat
  mode : Mode
deriving DecidableEq, Repr

/-- The alpha-flattening / color-mode branch of `preprocess_image`: transparent
modes are composited onto a white RGB background of the same size, other
non-RGB modes are converted to RGB; dimensions never change. -/
def flatten_to_rgb (img : Img) : Img :=
  match img.mode with
  | .RGBA => ⟨img.width, img.height, .RGB⟩
  | .LA => ⟨img.width, img.height, .RGB⟩
  | .P _ => ⟨img.width, img.height, .RGB⟩
  | .RGB => img
  | .other => ⟨img.width, img.height, .RGB⟩

/-- `preprocess_image` from `src/file_handler.py`: flatten transparency /
convert to RGB, then pad to `config.TARGET_IMAGE_SIZE` (the lossless PNG
encoding step is the identity on the geometry). -/
def preprocess_image (img : Img) : Except GeomError Padded :=
  let rgb := flatten_to_rgb img
  pad_image rgb.width rgb.height TARGET_IMAGE_SIZE.1 TARGET_IMAGE_SIZE.2

/-! ## Image ingestion (`get_image_bytes`, `src/file_handler.py`) -/

/-- A decode failure from `Image.open` (external I/O, abstracted). -/
inductive DecodeError where
  | unreadable
deriving DecidableEq, Repr

/-- What `get_image_bytes` returns: the canonical preprocessed image, or the
raw file bytes fallback. -/
inductive IngestOutput where
  | canonical (p : Padded)
  | raw (bytes : List Nat)
deriving DecidableEq, Repr

/-- `get_image_bytes` from `src/file_handler.py`.  The `try` block covers
both `Image.open` and `preprocess_image`; on any exception the raw file
bytes are returned.  The decode outcome of `Image.open` is external I/O and
is passed as a parameter. -/
def get_image_bytes (decoded : Except DecodeError Img) (fileBytes : List Nat) :
    IngestOutput :=
  match decoded with
  | .ok img =>
    match preprocess_image img with
    | .ok p => .canonical p
    | .error _ => .raw fileBytes
  | .error _ => .raw fileBytes

/-! ## PDF page rasterization (`extract_pdf_page_bytes`, `src/file_handler.py`) -/

/-- A page rectangle (`page.rect`), in 72-dpi units. -/
structure PageRect where
  width : ℚ
  height : ℚ
deriving DecidableEq, Repr

/-- Errors surfaced by the PDF path.  `pageNotInDocument` is PyMuPDF's
`ValueError("page not in document")`; `nonTermination` marks the parameter
region where PyMuPDF's negative-index loop would not terminate (empty
document). -/
inductive FitzError where
  | pageNotInDocument
  | nonTermination
deriving DecidableEq, Repr

/-- Modelled from PyMuPDF's documented `Document.load_page` semantics (the
repository calls it without any range check): a `page_id ≥ page_count`
raises `ValueError`, and a negative `page_id` has `page_count` added to it
while it is negative — i.e. it wraps modulo `page_count` and loads a real
page.  For `0 < page_count` the repeated addition equals `page_id %
page_count`. -/
def load_page_resolve (page_count : Nat) (page_id : Int) : Except FitzError Nat :=
  if (page_count : Int) ≤ page_id then .error .pageNotInDocument
  else if page_id < 0 then
    if 0 < page_count then .ok (page_id % (page_count : Int)).toNat
    else .error .nonTermination
  else .ok page_id.toNat

/-- `MAX_DIM` from `extract_pdf_page_bytes`. -/
def MAX_DIM : ℚ := 3000

/-- The zoom computation of `extract_pdf_page_bytes`: base zoom
`target_dpi / 72.0`, recomputed as `MAX_DIM / max(width, height)` when a
dimension would exceed `MAX_DIM`, then clamped below by `0.5`. -/
def compute_zoom (width height target_dpi : ℚ) : ℚ :=
  let zoom := target_dpi / 72
  let zoom2 :=
    if MAX_DIM < width * zoom ∨ MAX_DIM < height * zoom then
      MAX_DIM / max width height
    else zoom
  max zoom2 (1 / 2)

/-- Pixel dimensions of `page.get_pixmap(matrix=fitz.Matrix(zoom, zoom))`:
uniform scaling of the page rectangle on both axes (rounding modelled as
floor; the claims are stated on the rational extents). -/
def render_pixmap (r : PageRect) (zoom : ℚ) : Nat × Nat :=
  ((⌊r.width * zoom⌋).toNat, (⌊r.height * zoom⌋).toNat)

/-- Errors propagating out of `extract_pdf_page_bytes` (the function has no
`try`/`except`). -/
inductive ExtractError where
  | loadPage (e : FitzError)
  | preprocess (e : GeomError)
deriving DecidableEq, Repr

/-- `extract_pdf_page_bytes` from `src/file_handler.py`: load the page
(PyMuPDF index semantics), compute the capped-and-clamped zoom, render the
pixmap, and preprocess the result.  Every failure propagates: there is no
fallback path. -/
def extract_pdf_page_bytes (doc : List PageRect) (page_index : Int)
    (target_dpi : ℚ) : Except ExtractError Padded :=
  match load_page_resolve doc.length page_index with
  | .error e => .error (.loadPage e)
  | .ok n =>
    match doc.get? n with
    | none => .error (.loadPage .pageNotInDocument)
    | some rect =>
      let zoom := compute_zoom rect.width rect.height target_dpi
      let pix := render_pixmap rect zoom
      match preprocess_image ⟨pix.1, pix.2, Mode.RGB⟩ with
      | .ok p => .ok p
      | .error e => .error (.preprocess e)

/-! ## Markdown rendering (`FancyOutput.set_markdown`, `src/ui/output_panel.py`) -/

/-- An exception inside the `try` block of `set_markdown` (the Markdown
library and the restoration pipeline are external best-effort code). -/
inductive RenderError where
  | renderFailure
deriving DecidableEq, Repr

/-- What the web view displays after a call to `set_markdown`. -/
inductive DisplayState where
  | blank
  | document (html : List Char)
  | unchanged
deriving DecidableEq, Repr

/-- `FancyOutput.set_markdown`: empty input sets a blank document
(`setHtml("")`); otherwise the whole pipeline runs inside `try`, `setHtml`
is its final statement, and the `except` handler only prints — the
previously displayed document stays.  The pipeline body (whose exceptions
are external) is passed as a parameter. -/
def set_markdown (md_content : List Char)
    (pipeline : List Char → Except RenderError (List Char)) : DisplayState :=
  if md_content = [] then .blank
  else
    match pipeline md_content with
    | .ok full_html => .document full_html
    | .error _ => .unchanged

/-! ### Scan case analysis -/

theorem beginsLeft_iff (s : List Char) :
    beginsLeft s = true ↔ ∃ r, s = '\\' :: 'l' :: 'e' :: 'f' :: 't' :: r := by
  constructor
  · intro h
    unfold beginsLeft at h
    split at h
    · next r => exact ⟨r, rfl⟩
    · simp at h
  · rintro ⟨r, rfl⟩
    rfl

theorem beginsRight_iff (s : List Char) :
    beginsRight s = true ↔ ∃ r, s = '\\' :: 'r' :: 'i' :: 'g' :: 'h' :: 't' :: r := by
  constructor
  · intro h
    unfold beginsRight at h
    split at h
    · next r => exact ⟨r, rfl⟩
    · simp at h
  · rintro ⟨r, rfl⟩
    rfl

/-- Induction principle following the balancing scan: a text is empty, starts
with `\left`, starts with `\right`, or starts with a character that begins
neither token. -/
theorem scan_ind (motive : List Char → Prop)
    (hnil : motive [])
    (hleft : ∀ rest, motive rest → motive ('\\' :: 'l' :: 'e' :: 'f' :: 't' :: rest))
    (hright : ∀ rest, motive rest →
      motive ('\\' :: 'r' :: 'i' :: 'g' :: 'h' :: 't' :: rest))
    (hchar : ∀ c rest, beginsLeft (c :: rest) = false →
      beginsRight (c :: rest) = false → motive rest → motive (c :: rest)) :
    ∀ s, motive s := by
  have key : ∀ n s, s.length ≤ n → motive s := by
    intro n
    induction n with
    | zero =>
      intro s hlen
      have hs : s = [] := List.eq_nil_of_length_eq_zero (Nat.le_zero.mp hlen)
      rw [hs]; exact hnil
    | succ n ih =>
      intro s hlen
      cases hL : beginsLeft s with
      | true =>
        obtain ⟨r, rfl⟩ := (beginsLeft_iff s).mp hL
        refine hleft r (ih r ?_)
        simp only [List.length_cons] at hlen
        omega
      | false =>
        cases hR : beginsRight s with
        | true =>
          obtain ⟨r, rfl⟩ := (beginsRight_iff s).mp hR
          refine hright r (ih r ?_)
          simp only [List.length_cons] at hlen
          omega
        | false =>
          cases s with
          | nil => exact hnil
          | cons c rest =>
            refine hchar c rest hL hR (ih rest ?_)
            simp only [List.length_cons] at hlen
            omega
  exact fun s => key s.length s le_rfl

/-! ### Shape equations for the character case -/

theorem findCommands_char {c : Char} {rest : List Char}
    (hL : beginsLeft (c :: rest) = false) (hR : beginsRight (c :: rest) = false)
    (i : Nat) : findCommands (c :: rest) i = findCommands rest (i + 1) := by
  conv_lhs => unfold findCommands
  split
  · next h => rw [h] at hL; simp [beginsLeft] at hL
  · next h => rw [h] at hR; simp [beginsRight] at hR
  · next h => injection h with h1 h2; rw [h2]
  · next h => simp at h

theorem specKept_char {c : Char} {rest : List Char}
    (hL : beginsLeft (c :: rest) = false) (hR : beginsRight (c :: rest) = false)
    (d : Nat) : specKept (c :: rest) d = c :: specKept rest d := by
  conv_lhs => unfold specKept
  split
  · next h => rw [h] at hL; simp [beginsLeft] at hL
  · next h => rw [h] at hR; simp [beginsRight] at hR
  · next h => injection h with h1 h2; rw [h1, h2]
  · next h => simp at h

theorem specDepth_char {c : Char} {rest : List Char}
    (hL : beginsLeft (c :: rest) = false) (hR : beginsRight (c :: rest) = false)
    (d : Nat) : specDepth (c :: rest) d = specDepth rest d := by
  conv_lhs => unfold specDepth
  split
  · next h => rw [h] at hL; simp [beginsLeft] at hL
  · next h => rw [h] at hR; simp [beginsRight] at hR
  · next h => injection h with h1 h2; rw [h2]
  · next h => simp at h

theorem specNoOrphan_char {c : Char} {rest : List Char}
    (hL : beginsLeft (c :: rest) = false) (hR : beginsRight (c :: rest) = false)
    (d : Nat) : specNoOrphan (c :: rest) d = specNoOrphan rest d := by
  conv_lhs => unfold specNoOrphan
  split
  · next h => rw [h] at hL; simp [beginsLeft] at hL
  · next h => rw [h] at hR; simp [beginsRight] at hR
  · next h => injection h with h1 h2; rw [h2]
  · next h => simp at h

theorem countLeftTok_char {c : Char} {rest : List Char}
    (hL : beginsLeft (c :: rest) = false) (hR : beginsRight (c :: rest) = false) :
    countLeftTok (c :: rest) = countLeftTok rest := by
  conv_lhs => unfold countLeftTok
  split
  · next h => rw [h] at hL; simp [beginsLeft] at hL
  · next h => rw [h] at hR; simp [beginsRight] at hR
  · next h => injection h with h1 h2; rw [h2]
  · next h => simp at h

theorem countRightTok_char {c : Char} {rest : List Char}
    (hL : beginsLeft (c :: rest) = false) (hR : beginsRight (c :: rest) = false) :
    countRightTok (c :: rest) = countRightTok rest := by
  conv_lhs => unfold countRightTok
  split
  · next h => rw [h] at hL; simp [beginsLeft] at hL
  · next h => rw [h] at hR; simp [beginsRight] at hR
  · next h => injection h with h1 h2; rw [h2]
  · next h => simp at h
/-! ### Positions found by the scan -/

theorem findCommands_start_ge (s : List Char) :
    ∀ i, ∀ p ∈ findCommands s i, i ≤ p.1 := by
  induction s using scan_ind with
  | hnil => intro i p hp; simp [findCommands] at hp
  | hleft rest ih =>
    intro i p hp
    rw [show findCommands ('\\' :: 'l' :: 'e' :: 'f' :: 't' :: rest) i
        = (i, i + 5, Cmd.left) :: findCommands rest (i + 5) from rfl] at hp
    rcases List.mem_cons.mp hp with h | h
    · rw [h]
    · have := ih (i + 5) p h; omega
  | hright rest ih =>
    intro i p hp
    rw [show findCommands ('\\' :: 'r' :: 'i' :: 'g' :: 'h' :: 't' :: rest) i
        = (i, i + 6, Cmd.right) :: findCommands rest (i + 6) from rfl] at hp
    rcases List.mem_cons.mp hp with h | h
    · rw [h]
    · have := ih (i + 6) p h; omega
  | hchar c rest hL hR ih =>
    intro i p hp
    rw [findCommands_char hL hR] at hp
    have := ih (i + 1) p hp; omega

/-- Every position marked for removal is the start of some scanned match. -/
theorem markRemove_mem_start (cmds : List PosCmd) :
    ∀ d, ∀ x ∈ (markRemove cmds d).1, ∃ p ∈ cmds, x = p.1 := by
  induction cmds with
  | nil => intro d x hx; simp [markRemove] at hx
  | cons p rest ih =>
    intro d x hx
    obtain ⟨start, stop, cmd⟩ := p
    cases cmd with
    | left =>
      rw [show markRemove ((start, stop, Cmd.left) :: rest) d
          = markRemove rest (d + 1) from rfl] at hx
      obtain ⟨q, hq, hxq⟩ := ih (d + 1) x hx
      exact ⟨q, List.mem_cons_of_mem _ hq, hxq⟩
    | right =>
      by_cases hd : 0 < d
      · rw [show markRemove ((start, stop, Cmd.right) :: rest) d
            = if 0 < d then markRemove rest (d - 1)
              else ((start :: (markRemove rest d).1, (markRemove rest d).2))
            from rfl, if_pos hd] at hx
        obtain ⟨q, hq, hxq⟩ := ih (d - 1) x hx
        exact ⟨q, List.mem_cons_of_mem _ hq, hxq⟩
      · rw [show markRemove ((start, stop, Cmd.right) :: rest) d
            = if 0 < d then markRemove rest (d - 1)
              else ((start :: (markRemove rest d).1, (markRemove rest d).2))
            from rfl, if_neg hd] at hx
        rcases List.mem_cons.mp hx with h | h
        · exact ⟨(start, stop, Cmd.right), List.mem_cons_self _ _, h⟩
        · obtain ⟨q, hq, hxq⟩ := ih d x h
          exact ⟨q, List.mem_cons_of_mem _ hq, hxq⟩

/-- Positions marked for removal on a scan suffix starting at `i` are `≥ i`. -/
theorem markRemove_findCommands_ge (s : List Char) (i d : Nat) :
    ∀ x ∈ (markRemove (findCommands s i) d).1, i ≤ x := by
  intro x hx
  obtain ⟨p, hp, rfl⟩ := markRemove_mem_start (findCommands s i) d x hx
  exact findCommands_start_ge s i p hp

/-! ### The rebuild loop -/

theorem rebuildLoop_congr (latex : List Char) (cmds : List PosCmd) :
    ∀ rm rm' acc last, (∀ p ∈ cmds, (p.1 ∈ rm ↔ p.1 ∈ rm')) →
      rebuildLoop latex cmds rm acc last = rebuildLoop latex cmds rm' acc last := by
  induction cmds with
  | nil => intro rm rm' acc last _; rfl
  | cons p rest ih =>
    intro rm rm' acc last h
    obtain ⟨start, stop, cmd⟩ := p
    have hhead := h (start, stop, cmd) (List.mem_cons_self _ _)
    have htail : ∀ p ∈ rest, (p.1 ∈ rm ↔ p.1 ∈ rm') :=
      fun p hp => h p (List.mem_cons_of_mem _ hp)
    by_cases hs : start ∈ rm
    · rw [show rebuildLoop latex ((start, stop, cmd) :: rest) rm acc last
          = if start ∈ rm then
              rebuildLoop latex rest rm (acc ++ slice latex last start) stop
            else rebuildLoop latex rest rm acc last from rfl, if_pos hs]
      rw [show rebuildLoop latex ((start, stop, cmd) :: rest) rm' acc last
          = if start ∈ rm' then
              rebuildLoop latex rest rm' (acc ++ slice latex last start) stop
            else rebuildLoop latex rest rm' acc last from rfl,
          if_pos (hhead.mp hs)]
      exact ih rm rm' _ _ htail
    · rw [show rebuildLoop latex ((start, stop, cmd) :: rest) rm acc last
          = if start ∈ rm then
              rebuildLoop latex rest rm (acc ++ slice latex last start) stop
            else rebuildLoop latex rest rm acc last from rfl, if_neg hs]
      rw [show rebuildLoop latex ((start, stop, cmd) :: rest) rm' acc last
          = if start ∈ rm' then
              rebuildLoop latex rest rm' (acc ++ slice latex last start) stop
            else rebuildLoop latex rest rm' acc last from rfl,
          if_neg (fun hs' => hs (hhead.mpr hs'))]
      exact ih rm rm' _ _ htail

theorem slice_self (l : List Char) (a : Nat) : slice l a a = [] := by
  unfold slice
  exact List.drop_eq_nil_of_le (by rw [List.length_take]; omega)

theorem slice_eq_take (l s : List Char) (a b : Nat) (h : l.drop a = s) :
    slice l a b = s.take (b - a) := by
  unfold slice
  rw [List.drop_take, h]

theorem slice_append_drop (l : List Char) (a b : Nat) (hab : a ≤ b) :
    slice l a b ++ l.drop b = l.drop a := by
  unfold slice
  rw [List.drop_take]
  have hdrop : l.drop b = (l.drop a).drop (b - a) := by
    rw [List.drop_drop]; congr 1; omega
  rw [hdrop, List.take_append_drop]

theorem slice_trans (l : List Char) (a b c : Nat) (hab : a ≤ b) (hbc : b ≤ c) :
    slice l a b ++ slice l b c = slice l a c := by
  unfold slice
  rw [List.drop_take, List.drop_take, List.drop_take]
  have hdrop : l.drop b = (l.drop a).drop (b - a) := by
    rw [List.drop_drop]; congr 1; omega
  rw [hdrop, ← List.take_add]
  congr 1
  omega

/-- Sliding the pending `last_idx` forward over a region containing no match:
the rebuilt output is unchanged if the skipped region is added to the
accumulator. -/
theorem rebuildOut_slide (latex : List Char) (cmds : List PosCmd) :
    ∀ rm acc i j, i ≤ j → j ≤ latex.length → (∀ p ∈ cmds, j ≤ p.1) →
      rebuildOut latex cmds rm acc i
        = rebuildOut latex cmds rm (acc ++ slice latex i j) j := by
  induction cmds with
  | nil =>
    intro rm acc i j hij hjl _
    unfold rebuildOut rebuildLoop
    simp only [List.append_assoc]
    rw [slice_append_drop latex i j hij]
  | cons p rest ih =>
    intro rm acc i j hij hjl h
    obtain ⟨start, stop, cmd⟩ := p
    have hstart : j ≤ start := h (start, stop, cmd) (List.mem_cons_self _ _)
    have htail : ∀ p ∈ rest, j ≤ p.1 := fun p hp => h p (List.mem_cons_of_mem _ hp)
    by_cases hs : start ∈ rm
    · unfold rebuildOut
      rw [show rebuildLoop latex ((start, stop, cmd) :: rest) rm acc i
          = if start ∈ rm then
              rebuildLoop latex rest rm (acc ++ slice latex i start) stop
            else rebuildLoop latex rest rm acc i from rfl, if_pos hs]
      rw [show rebuildLoop latex ((start, stop, cmd) :: rest) rm (acc ++ slice latex i j) j
          = if start ∈ rm then
              rebuildLoop latex rest rm ((acc ++ slice latex i j) ++ slice latex j start) stop
            else rebuildLoop latex rest rm (acc ++ slice latex i j) j from rfl, if_pos hs]
      rw [List.append_assoc, slice_trans latex i j start hij hstart]
    · unfold rebuildOut
      rw [show rebuildLoop latex ((start, stop, cmd) :: rest) rm acc i
          = if start ∈ rm then
              rebuildLoop latex rest rm (acc ++ slice latex i start) stop
            else rebuildLoop latex rest rm acc i from rfl, if_neg hs]
      rw [show rebuildLoop latex ((start, stop, cmd) :: rest) rm (acc ++ slice latex i j) j
          = if start ∈ rm then
              rebuildLoop latex rest rm ((acc ++ slice latex i j) ++ slice latex j start) stop
            else rebuildLoop latex rest rm (acc ++ slice latex i j) j from rfl, if_neg hs]
      exact ih rm acc i j hij hjl htail

/-! ### Step equations -/

theorem rebuildOut_nil (latex : List Char) (rm : List Nat) (acc : List Char)
    (last : Nat) : rebuildOut latex [] rm acc last = acc ++ latex.drop last := rfl

theorem rebuildOut_cons_mem (latex : List Char) (start stop : Nat) (cmd : Cmd)
    (rest : List PosCmd) (rm : List Nat) (acc : List Char) (last : Nat)
    (h : start ∈ rm) :
    rebuildOut latex ((start, stop, cmd) :: rest) rm acc last
      = rebuildOut latex rest rm (acc ++ slice latex last start) stop := by
  unfold rebuildOut
  rw [show rebuildLoop latex ((start, stop, cmd) :: rest) rm acc last
      = if start ∈ rm then
          rebuildLoop latex rest rm (acc ++ slice latex last start) stop
        else rebuildLoop latex rest rm acc last from rfl, if_pos h]

theorem rebuildOut_cons_not_mem (latex : List Char) (start stop : Nat) (cmd : Cmd)
    (rest : List PosCmd) (rm : List Nat) (acc : List Char) (last : Nat)
    (h : start ∉ rm) :
    rebuildOut latex ((start, stop, cmd) :: rest) rm acc last
      = rebuildOut latex rest rm acc last := by
  unfold rebuildOut
  rw [show rebuildLoop latex ((start, stop, cmd) :: rest) rm acc last
      = if start ∈ rm then
          rebuildLoop latex rest rm (acc ++ slice latex last start) stop
        else rebuildLoop latex rest rm acc last from rfl, if_neg h]

theorem rebuildOut_congr (latex : List Char) (cmds : List PosCmd) (rm rm' : List Nat)
    (acc : List Char) (last : Nat) (h : ∀ p ∈ cmds, (p.1 ∈ rm ↔ p.1 ∈ rm')) :
    rebuildOut latex cmds rm acc last = rebuildOut latex cmds rm' acc last := by
  unfold rebuildOut
  rw [rebuildLoop_congr latex cmds rm rm' acc last h]

theorem markRemove_right_pos (start stop : Nat) (rest : List PosCmd) (d : Nat)
    (h : 0 < d) : markRemove ((start, stop, Cmd.right) :: rest) d
      = markRemove rest (d - 1) := by
  rw [show markRemove ((start, stop, Cmd.right) :: rest) d
      = if 0 < d then markRemove rest (d - 1)
        else ((start :: (markRemove rest d).1, (markRemove rest d).2)) from rfl,
      if_pos h]

theorem specKept_right (rest : List Char) (d : Nat) :
    specKept ('\\' :: 'r' :: 'i' :: 'g' :: 'h' :: 't' :: rest) d
      = if 0 < d then '\\' :: 'r' :: 'i' :: 'g' :: 'h' :: 't' :: specKept rest (d - 1)
        else specKept rest d := rfl

theorem specDepth_right (rest : List Char) (d : Nat) :
    specDepth ('\\' :: 'r' :: 'i' :: 'g' :: 'h' :: 't' :: rest) d
      = if 0 < d then specDepth rest (d - 1) else specDepth rest d := rfl

theorem specNoOrphan_right (rest : List Char) (d : Nat) :
    specNoOrphan ('\\' :: 'r' :: 'i' :: 'g' :: 'h' :: 't' :: rest) d
      = if 0 < d then specNoOrphan rest (d - 1) else false := rfl

/-! ### The staged implementation agrees with the one-pass scan -/

/-- The `stack` value computed by the depth loop is the spec's leftover
depth. -/
theorem markRemove_snd_eq_specDepth (s : List Char) :
    ∀ i d, (markRemove (findCommands s i) d).2 = specDepth s d := by
  induction s using scan_ind with
  | hnil => intro i d; rfl
  | hleft rest ih =>
    intro i d
    exact ih (i + 5) (d + 1)
  | hright rest ih =>
    intro i d
    rw [show findCommands ('\\' :: 'r' :: 'i' :: 'g' :: 'h' :: 't' :: rest) i
        = (i, i + 6, Cmd.right) :: findCommands rest (i + 6) from rfl,
        specDepth_right]
    by_cases hd : 0 < d
    · rw [markRemove_right_pos _ _ _ _ hd, if_pos hd]
      exact ih (i + 6) (d - 1)
    · rw [show markRemove ((i, i + 6, Cmd.right) :: findCommands rest (i + 6)) d
          = if 0 < d then markRemove (findCommands rest (i + 6)) (d - 1)
            else ((i :: (markRemove (findCommands rest (i + 6)) d).1,
                   (markRemove (findCommands rest (i + 6)) d).2)) from rfl,
          if_neg hd, if_neg hd]
      exact ih (i + 6) d
  | hchar c rest hL hR ih =>
    intro i d
    rw [findCommands_char hL hR, specDepth_char hL hR]
    exact ih (i + 1) d

/-- The rebuilt text (with the final tail appended) is the spec's kept
text: the staged remove-and-splice loop implements the one-pass deletion
scan. -/
theorem rebuildOut_eq_specKept (s : List Char) :
    ∀ latex i d acc, latex.drop i = s → i ≤ latex.length →
      rebuildOut latex (findCommands s i) (markRemove (findCommands s i) d).1 acc i
        = acc ++ specKept s d := by
  induction s using scan_ind with
  | hnil =>
    intro latex i d acc hdrop hle
    rw [show findCommands [] i = [] from rfl, show (markRemove [] d).1 = [] from rfl,
        rebuildOut_nil, hdrop]
    rfl
  | hleft rest ih =>
    intro latex i d acc hdrop hle
    have hslen : latex.length - i = rest.length + 5 := by
      have := List.length_drop i latex
      rw [hdrop] at this
      simpa using this.symm
    have hle5 : i + 5 ≤ latex.length := by omega
    have hdrop5 : latex.drop (i + 5) = rest := by
      rw [← List.drop_drop, hdrop]
      rfl
    rw [show findCommands ('\\' :: 'l' :: 'e' :: 'f' :: 't' :: rest) i
        = (i, i + 5, Cmd.left) :: findCommands rest (i + 5) from rfl,
        show markRemove ((i, i + 5, Cmd.left) :: findCommands rest (i + 5)) d
        = markRemove (findCommands rest (i + 5)) (d + 1) from rfl]
    rw [rebuildOut_cons_not_mem _ _ _ _ _ _ _ _
        (fun hmem => by
          have := markRemove_findCommands_ge rest (i + 5) (d + 1) i hmem
          omega)]
    rw [rebuildOut_slide latex (findCommands rest (i + 5)) _ acc i (i + 5)
        (by omega) hle5 (findCommands_start_ge rest (i + 5))]
    rw [slice_eq_take latex _ i (i + 5) hdrop,
        show (i + 5 - i) = 5 from by omega,
        show ('\\' :: 'l' :: 'e' :: 'f' :: 't' :: rest).take 5
          = ['\\', 'l', 'e', 'f', 't'] from rfl]
    rw [ih latex (i + 5) (d + 1) _ hdrop5 hle5]
    simp [specKept]
  | hright rest ih =>
    intro latex i d acc hdrop hle
    have hslen : latex.length - i = rest.length + 6 := by
      have := List.length_drop i latex
      rw [hdrop] at this
      simpa using this.symm
    have hle6 : i + 6 ≤ latex.length := by omega
    have hdrop6 : latex.drop (i + 6) = rest := by
      rw [← List.drop_drop, hdrop]
      rfl
    rw [show findCommands ('\\' :: 'r' :: 'i' :: 'g' :: 'h' :: 't' :: rest) i
        = (i, i + 6, Cmd.right) :: findCommands rest (i + 6) from rfl,
        specKept_right]
    by_cases hd : 0 < d
    · rw [markRemove_right_pos _ _ _ _ hd, if_pos hd]
      rw [rebuildOut_cons_not_mem _ _ _ _ _ _ _ _
          (fun hmem => by
            have := markRemove_findCommands_ge rest (i + 6) (d - 1) i hmem
            omega)]
      rw [rebuildOut_slide latex (findCommands rest (i + 6)) _ acc i (i + 6)
          (by omega) hle6 (findCommands_start_ge rest (i + 6))]
      rw [slice_eq_take latex _ i (i + 6) hdrop,
          show (i + 6 - i) = 6 from by omega,
          show ('\\' :: 'r' :: 'i' :: 'g' :: 'h' :: 't' :: rest).take 6
            = ['\\', 'r', 'i', 'g', 'h', 't'] from rfl]
      rw [ih latex (i + 6) (d - 1) _ hdrop6 hle6]
      simp
    · rw [show markRemove ((i, i + 6, Cmd.right) :: findCommands rest (i + 6)) d
          = if 0 < d then markRemove (findCommands rest (i + 6)) (d - 1)
            else ((i :: (markRemove (findCommands rest (i + 6)) d).1,
                   (markRemove (findCommands rest (i + 6)) d).2)) from rfl,
          if_neg hd, if_neg hd]
      rw [rebuildOut_cons_mem _ _ _ _ _ _ _ _ (List.mem_cons_self _ _)]
      rw [slice_self, List.append_nil]
      rw [rebuildOut_congr latex (findCommands rest (i + 6))
          (i :: (markRemove (findCommands rest (i + 6)) d).1)
          (markRemove (findCommands rest (i + 6)) d).1 acc (i + 6)
          (fun p hp => by
            have hge := findCommands_start_ge rest (i + 6) p hp
            constructor
            · intro hmem
              rcases List.mem_cons.mp hmem with h | h
              · omega
              · exact h
            · exact fun h => List.mem_cons_of_mem _ h)]
      exact ih latex (i + 6) d acc hdrop6 hle6
  | hchar c rest hL hR ih =>
    intro latex i d acc hdrop hle
    have hslen : latex.length - i = rest.length + 1 := by
      have := List.length_drop i latex
      rw [hdrop] at this
      simpa using this.symm
    have hle1 : i + 1 ≤ latex.length := by omega
    have hdrop1 : latex.drop (i + 1) = rest := by
      rw [← List.drop_drop, hdrop]
      rfl
    rw [findCommands_char hL hR, specKept_char hL hR]
    rw [rebuildOut_slide latex (findCommands rest (i + 1)) _ acc i (i + 1)
        (by omega) hle1 (findCommands_start_ge rest (i + 1))]
    rw [slice_eq_take latex _ i (i + 1) hdrop,
        show (i + 1 - i) = 1 from by omega,
        show (c :: rest).take 1 = [c] from rfl]
    rw [ih latex (i + 1) d _ hdrop1 hle1]
    simp

/-- `balance_latex_delimiters` equals the spec's one-pass scan: the kept text
(with orphan `\right` occurrences deleted in place) followed by one
`" \right."` closer per unit of leftover depth. -/
theorem balance_eq_spec (latex : List Char) :
    balance_latex_delimiters latex
      = specKept latex 0 ++ closers (specDepth latex 0) := by
  have hform : balance_latex_delimiters latex
      = (if 0 < (markRemove (findCommands latex 0) 0).2 then
          rebuildOut latex (findCommands latex 0)
              (markRemove (findCommands latex 0) 0).1 [] 0
            ++ (List.replicate (markRemove (findCommands latex 0) 0).2
                closerTok).flatten
        else
          rebuildOut latex (findCommands latex 0)
              (markRemove (findCommands latex 0) 0).1 [] 0) := rfl
  rw [hform, markRemove_snd_eq_specDepth latex 0 0,
      rebuildOut_eq_specKept latex latex 0 0 [] (List.drop_zero latex) (Nat.zero_le _),
      List.nil_append]
  by_cases hd : 0 < specDepth latex 0
  · rw [if_pos hd]
    rfl
  · rw [if_neg hd]
    have : specDepth latex 0 = 0 := by omega
    rw [this]
    simp [closers]

/-! ### Texts without orphan `\right` occurrences -/

/-- When the scan meets no orphan `\right`, nothing is deleted. -/
theorem specKept_id (s : List Char) :
    ∀ d, specNoOrphan s d = true → specKept s d = s := by
  induction s using scan_ind with
  | hnil => intro d _; rfl
  | hleft rest ih =>
    intro d h
    rw [show specNoOrphan ('\\' :: 'l' :: 'e' :: 'f' :: 't' :: rest) d
        = specNoOrphan rest (d + 1) from rfl] at h
    rw [show specKept ('\\' :: 'l' :: 'e' :: 'f' :: 't' :: rest) d
        = '\\' :: 'l' :: 'e' :: 'f' :: 't' :: specKept rest (d + 1) from rfl,
        ih (d + 1) h]
  | hright rest ih =>
    intro d h
    rw [specNoOrphan_right] at h
    by_cases hd : 0 < d
    · rw [if_pos hd] at h
      rw [specKept_right, if_pos hd, ih (d - 1) h]
    · rw [if_neg hd] at h
      exact absurd h (by simp)
  | hchar c rest hL hR ih =>
    intro d h
    rw [specNoOrphan_char hL hR] at h
    rw [specKept_char hL hR, ih d h]

/-- When the scan meets no orphan `\right`, the depth loop marks nothing for
removal. -/
theorem markRemove_fst_nil_of_noOrphan (s : List Char) :
    ∀ i d, specNoOrphan s d = true → (markRemove (findCommands s i) d).1 = [] := by
  induction s using scan_ind with
  | hnil => intro i d _; rfl
  | hleft rest ih =>
    intro i d h
    rw [show specNoOrphan ('\\' :: 'l' :: 'e' :: 'f' :: 't' :: rest) d
        = specNoOrphan rest (d + 1) from rfl] at h
    exact ih (i + 5) (d + 1) h
  | hright rest ih =>
    intro i d h
    rw [specNoOrphan_right] at h
    rw [show findCommands ('\\' :: 'r' :: 'i' :: 'g' :: 'h' :: 't' :: rest) i
        = (i, i + 6, Cmd.right) :: findCommands rest (i + 6) from rfl]
    by_cases hd : 0 < d
    · rw [if_pos hd] at h
      rw [markRemove_right_pos _ _ _ _ hd]
      exact ih (i + 6) (d - 1) h
    · rw [if_neg hd] at h
      exact absurd h (by simp)
  | hchar c rest hL hR ih =>
    intro i d h
    rw [specNoOrphan_char hL hR] at h
    rw [findCommands_char hL hR]
    exact ih (i + 1) d h

/-- Counting tokens: without orphans, the number of `\left` tokens plus the
initial depth equals the number of `\right` tokens plus the leftover depth. -/
theorem count_of_noOrphan (s : List Char) :
    ∀ d, specNoOrphan s d = true →
      countLeftTok s + d = countRightTok s + specDepth s d := by
  induction s using scan_ind with
  | hnil => intro d _; rfl
  | hleft rest ih =>
    intro d h
    rw [show specNoOrphan ('\\' :: 'l' :: 'e' :: 'f' :: 't' :: rest) d
        = specNoOrphan rest (d + 1) from rfl] at h
    rw [show countLeftTok ('\\' :: 'l' :: 'e' :: 'f' :: 't' :: rest)
        = countLeftTok rest + 1 from rfl,
        show countRightTok ('\\' :: 'l' :: 'e' :: 'f' :: 't' :: rest)
        = countRightTok rest from rfl,
        show specDepth ('\\' :: 'l' :: 'e' :: 'f' :: 't' :: rest) d
        = specDepth rest (d + 1) from rfl]
    have := ih (d + 1) h
    omega
  | hright rest ih =>
    intro d h
    rw [specNoOrphan_right] at h
    by_cases hd : 0 < d
    · rw [if_pos hd] at h
      rw [show countLeftTok ('\\' :: 'r' :: 'i' :: 'g' :: 'h' :: 't' :: rest)
          = countLeftTok rest from rfl,
          show countRightTok ('\\' :: 'r' :: 'i' :: 'g' :: 'h' :: 't' :: rest)
          = countRightTok rest + 1 from rfl,
          specDepth_right, if_pos hd]
      have := ih (d - 1) h
      omega
    · rw [if_neg hd] at h
      exact absurd h (by simp)
  | hchar c rest hL hR ih =>
    intro d h
    rw [specNoOrphan_char hL hR] at h
    rw [countLeftTok_char hL hR, countRightTok_char hL hR, specDepth_char hL hR]
    exact ih d h

/-! ### Scanning the appended closers -/

theorem closers_succ (k : Nat) :
    closers (k + 1)
      = ' ' :: '\\' :: 'r' :: 'i' :: 'g' :: 'h' :: 't' :: '.' :: closers k := by
  simp [closers, closerTok, List.replicate_succ]

/-- Scanning the closer text `" \right." * k` from depth `d ≥ k`: every
closer's `\right` is matched, nothing is deleted, and the depth drops by
`k`. -/
theorem specScan_closers (k : Nat) :
    ∀ d, k ≤ d → specKept (closers k) d = closers k
      ∧ specDepth (closers k) d = d - k
      ∧ specNoOrphan (closers k) d = true := by
  induction k with
  | zero =>
    intro d _
    refine ⟨rfl, ?_, rfl⟩
    show d = d - 0
    omega
  | succ k' ih =>
    intro d hkd
    have hd : 0 < d := by omega
    have hkd' : k' ≤ d - 1 := by omega
    obtain ⟨hkept, hdepth, hno⟩ := ih (d - 1) hkd'
    rw [closers_succ]
    refine ⟨?_, ?_, ?_⟩
    · rw [specKept_char (by rfl) (by rfl), specKept_right, if_pos hd,
          specKept_char (by rfl) (by rfl), hkept]
    · rw [specDepth_char (by rfl) (by rfl), specDepth_right, if_pos hd,
          specDepth_char (by rfl) (by rfl), hdepth]
      omega
    · rw [specNoOrphan_char (by rfl) (by rfl), specNoOrphan_right, if_pos hd,
          specNoOrphan_char (by rfl) (by rfl), hno]

/-! ### Appending closers to a clean text -/

theorem beginsLeft_append_space (s u : List Char) :
    beginsLeft (s ++ ' ' :: u) = true → beginsLeft s = true := by
  intro h
  obtain ⟨r, hr⟩ := (beginsLeft_iff _).mp h
  rcases s with _ | ⟨a, _ | ⟨b, _ | ⟨c, _ | ⟨d, _ | ⟨e, tail⟩⟩⟩⟩⟩
  · simp at hr
  · simp at hr
  · simp at hr
  · simp at hr
  · simp at hr
  · injection hr with h1 hr
    injection hr with h2 hr
    injection hr with h3 hr
    injection hr with h4 hr
    injection hr with h5 _
    subst h1; subst h2; subst h3; subst h4; subst h5
    rfl

theorem beginsRight_append_space (s u : List Char) :
    beginsRight (s ++ ' ' :: u) = true → beginsRight s = true := by
  intro h
  obtain ⟨r, hr⟩ := (beginsRight_iff _).mp h
  rcases s with _ | ⟨a, _ | ⟨b, _ | ⟨c, _ | ⟨d, _ | ⟨e, _ | ⟨f, tail⟩⟩⟩⟩⟩⟩
  · simp at hr
  · simp at hr
  · simp at hr
  · simp at hr
  · simp at hr
  · simp at hr
  · injection hr with h1 hr
    injection hr with h2 hr
    injection hr with h3 hr
    injection hr with h4 hr
    injection hr with h5 hr
    injection hr with h6 _
    subst h1; subst h2; subst h3; subst h4; subst h5; subst h6
    rfl

theorem beginsLeft_append_closers (s : List Char) (k : Nat)
    (h : beginsLeft s = false) : beginsLeft (s ++ closers k) = false := by
  cases k with
  | zero => simpa [closers] using h
  | succ k' =>
    rw [closers_succ]
    cases hb : beginsLeft (s ++ ' ' :: '\\' :: 'r' :: 'i' :: 'g' :: 'h' :: 't' :: '.'
        :: closers k') with
    | false => rfl
    | true =>
      have := beginsLeft_append_space s _ hb
      rw [h] at this
      exact absurd this (by simp)

theorem beginsRight_append_closers (s : List Char) (k : Nat)
    (h : beginsRight s = false) : beginsRight (s ++ closers k) = false := by
  cases k with
  | zero => simpa [closers] using h
  | succ k' =>
    rw [closers_succ]
    cases hb : beginsRight (s ++ ' ' :: '\\' :: 'r' :: 'i' :: 'g' :: 'h' :: 't' :: '.'
        :: closers k') with
    | false => rfl
    | true =>
      have := beginsRight_append_space s _ hb
      rw [h] at this
      exact absurd this (by simp)

/-- Scanning `s ++ closers k` is scanning `s` and then the closers at the
leftover depth (appending closers never splices new tokens, because the
closer text begins with a space). -/
theorem spec_append_closers (s : List Char) :
    ∀ d k, specDepth (s ++ closers k) d = specDepth (closers k) (specDepth s d)
      ∧ (specNoOrphan s d = true →
          specKept (s ++ closers k) d
            = specKept s d ++ specKept (closers k) (specDepth s d)
          ∧ specNoOrphan (s ++ closers k) d
            = specNoOrphan (closers k) (specDepth s d)) := by
  induction s using scan_ind with
  | hnil =>
    intro d k
    exact ⟨rfl, fun _ => ⟨rfl, rfl⟩⟩
  | hleft rest ih =>
    intro d k
    rw [show ('\\' :: 'l' :: 'e' :: 'f' :: 't' :: rest) ++ closers k
        = '\\' :: 'l' :: 'e' :: 'f' :: 't' :: (rest ++ closers k) from rfl]
    rw [show specDepth ('\\' :: 'l' :: 'e' :: 'f' :: 't' :: (rest ++ closers k)) d
        = specDepth (rest ++ closers k) (d + 1) from rfl,
        show specDepth ('\\' :: 'l' :: 'e' :: 'f' :: 't' :: rest) d
        = specDepth rest (d + 1) from rfl]
    obtain ⟨ihd, ihk⟩ := ih (d + 1) k
    refine ⟨ihd, fun h => ?_⟩
    rw [show specNoOrphan ('\\' :: 'l' :: 'e' :: 'f' :: 't' :: rest) d
        = specNoOrphan rest (d + 1) from rfl] at h
    obtain ⟨ihk1, ihk2⟩ := ihk h
    constructor
    · rw [show specKept ('\\' :: 'l' :: 'e' :: 'f' :: 't' :: (rest ++ closers k)) d
          = '\\' :: 'l' :: 'e' :: 'f' :: 't' :: specKept (rest ++ closers k) (d + 1)
          from rfl,
          show specKept ('\\' :: 'l' :: 'e' :: 'f' :: 't' :: rest) d
          = '\\' :: 'l' :: 'e' :: 'f' :: 't' :: specKept rest (d + 1) from rfl,
          ihk1]
      rfl
    · rw [show specNoOrphan ('\\' :: 'l' :: 'e' :: 'f' :: 't' :: (rest ++ closers k)) d
          = specNoOrphan (rest ++ closers k) (d + 1) from rfl, ihk2]
  | hright rest ih =>
    intro d k
    rw [show ('\\' :: 'r' :: 'i' :: 'g' :: 'h' :: 't' :: rest) ++ closers k
        = '\\' :: 'r' :: 'i' :: 'g' :: 'h' :: 't' :: (rest ++ closers k) from rfl]
    by_cases hd : 0 < d
    · rw [specDepth_right, specDepth_right, if_pos hd, if_pos hd]
      obtain ⟨ihd, ihk⟩ := ih (d - 1) k
      refine ⟨ihd, fun h => ?_⟩
      rw [specNoOrphan_right, if_pos hd] at h
      obtain ⟨ihk1, ihk2⟩ := ihk h
      constructor
      · rw [specKept_right, specKept_right, if_pos hd, if_pos hd, ihk1]
        rfl
      · rw [specNoOrphan_right, if_pos hd, ihk2]
    · rw [specDepth_right, specDepth_right, if_neg hd, if_neg hd]
      obtain ⟨ihd, _⟩ := ih d k
      refine ⟨ihd, fun h => ?_⟩
      rw [specNoOrphan_right, if_neg hd] at h
      exact absurd h (by simp)
  | hchar c rest hL hR ih =>
    intro d k
    have hL' : beginsLeft ((c :: rest) ++ closers k) = false :=
      beginsLeft_append_closers _ k hL
    have hR' : beginsRight ((c :: rest) ++ closers k) = false :=
      beginsRight_append_closers _ k hR
    rw [show (c :: rest) ++ closers k = c :: (rest ++ closers k) from rfl] at hL' hR' ⊢
    rw [specDepth_char hL' hR', specDepth_char hL hR]
    obtain ⟨ihd, ihk⟩ := ih d k
    refine ⟨ihd, fun h => ?_⟩
    rw [specNoOrphan_char hL hR] at h
    obtain ⟨ihk1, ihk2⟩ := ihk h
    constructor
    · rw [specKept_char hL' hR', specKept_char hL hR, ihk1]
      rfl
    · rw [specNoOrphan_char hL' hR', ihk2]

/-! ### Balance on clean texts -/

/-- On a text without orphan `\right` occurrences, balancing appends the
closers and changes nothing else. -/
theorem balance_clean (s : List Char) (h : specNoOrphan s 0 = true) :
    balance_latex_delimiters s = s ++ closers (specDepth s 0) := by
  rw [balance_eq_spec, specKept_id s 0 h]

/-- The output of balancing a clean text is itself clean, fully matched, and
kept verbatim by a re-scan. -/
theorem balance_out_clean (s : List Char) (h : specNoOrphan s 0 = true) :
    specNoOrphan (balance_latex_delimiters s) 0 = true
      ∧ specDepth (balance_latex_delimiters s) 0 = 0
      ∧ specKept (balance_latex_delimiters s) 0 = balance_latex_delimiters s := by
  rw [balance_clean s h]
  obtain ⟨hkept, hdepth, hno⟩ :=
    specScan_closers (specDepth s 0) (specDepth s 0) le_rfl
  obtain ⟨hd, hk⟩ := spec_append_closers s 0 (specDepth s 0)
  obtain ⟨hk1, hk2⟩ := hk h
  refine ⟨?_, ?_, ?_⟩
  · rw [hk2, hno]
  · rw [hd, hdepth]
    omega
  · rw [hk1, specKept_id s 0 h, hkept]

/-! ## Claim theorems -/

/-- C1 counterexample: a 2048×1 source at the 1024×1024 target scales its
height to `int(1 * 0.5) = 0`, so the source's `image.resize` raises
Pillow's `ValueError` — `pad_image` fails instead of returning a
target-sized image, refuting the claim on its stated domain. -/
theorem pad_image_thin_source_raises :
    1 ≤ 2048 ∧ 1 ≤ (1 : Nat)
    ∧ pad_image 2048 1 1024 1024 = .error GeomError.resizeValue := by
  refine ⟨by norm_num, by norm_num, ?_⟩
  norm_num [pad_image]

/-- C1 amended: for every source image with positive dimensions and every
target size for which neither scaled dimension `floor(source_dim * scale)`
truncates to zero (otherwise `image.resize` raises `ValueError`),
`pad_image` returns a canvas of exactly `target_width × target_height`, the
content resampled to `floor(source_dim * scale)` per axis with
`scale = min(target_w / source_w, target_h / source_h)`, pasted at offsets
`floor((target - scaled) / 2)`; the content fits in the box and each content
dimension is within one pixel below an exact pair having the source's
aspect ratio. -/
theorem pad_image_geometry (ow oh tw th : Nat) (how : 1 ≤ ow) (hoh : 1 ≤ oh)
    (hW : 1 ≤ ⌊(ow : ℚ) * min ((tw : ℚ) / (ow : ℚ)) ((th : ℚ) / (oh : ℚ))⌋)
    (hH : 1 ≤ ⌊(oh : ℚ) * min ((tw : ℚ) / (ow : ℚ)) ((th : ℚ) / (oh : ℚ))⌋) :
    ∃ p : Padded, pad_image ow oh tw th = .ok p
      ∧ p.canvasWidth = tw ∧ p.canvasHeight = th
      ∧ p.contentWidth
          = (⌊(ow : ℚ) * min ((tw : ℚ) / (ow : ℚ)) ((th : ℚ) / (oh : ℚ))⌋).toNat
      ∧ p.contentHeight
          = (⌊(oh : ℚ) * min ((tw : ℚ) / (ow : ℚ)) ((th : ℚ) / (oh : ℚ))⌋).toNat
      ∧ p.xOffset = (tw - p.contentWidth) / 2
      ∧ p.yOffset = (th - p.contentHeight) / 2
      ∧ p.contentWidth ≤ tw ∧ p.contentHeight ≤ th
      ∧ ∃ w h : ℚ, w * (oh : ℚ) = h * (ow : ℚ)
          ∧ w - 1 < (p.contentWidth : ℚ) ∧ (p.contentWidth : ℚ) ≤ w
          ∧ h - 1 < (p.contentHeight : ℚ) ∧ (p.contentHeight : ℚ) ≤ h := by
  have how0 : ow ≠ 0 := by omega
  have hoh0 : oh ≠ 0 := by omega
  have howQ : (0 : ℚ) < (ow : ℚ) := by exact_mod_cast Nat.pos_of_ne_zero how0
  have hohQ : (0 : ℚ) < (oh : ℚ) := by exact_mod_cast Nat.pos_of_ne_zero hoh0
  have hs0 : (0 : ℚ) ≤ min ((tw : ℚ) / (ow : ℚ)) ((th : ℚ) / (oh : ℚ)) :=
    le_min (div_nonneg (by positivity) (le_of_lt howQ))
      (div_nonneg (by positivity) (le_of_lt hohQ))
  have hxw0 : (0 : ℚ) ≤ (ow : ℚ) * min ((tw : ℚ) / (ow : ℚ)) ((th : ℚ) / (oh : ℚ)) :=
    mul_nonneg (le_of_lt howQ) hs0
  have hxh0 : (0 : ℚ) ≤ (oh : ℚ) * min ((tw : ℚ) / (ow : ℚ)) ((th : ℚ) / (oh : ℚ)) :=
    mul_nonneg (le_of_lt hohQ) hs0
  have hwle : (ow : ℚ) * min ((tw : ℚ) / (ow : ℚ)) ((th : ℚ) / (oh : ℚ)) ≤ (tw : ℚ) := by
    have h1 : (ow : ℚ) * min ((tw : ℚ) / (ow : ℚ)) ((th : ℚ) / (oh : ℚ))
        ≤ (ow : ℚ) * ((tw : ℚ) / (ow : ℚ)) :=
      mul_le_mul_of_nonneg_left (min_le_left _ _) (le_of_lt howQ)
    calc (ow : ℚ) * min ((tw : ℚ) / (ow : ℚ)) ((th : ℚ) / (oh : ℚ))
        ≤ (ow : ℚ) * ((tw : ℚ) / (ow : ℚ)) := h1
      _ = (tw : ℚ) := by
          rw [mul_comm, div_mul_cancel₀ _ (ne_of_gt howQ)]
  have hhle : (oh : ℚ) * min ((tw : ℚ) / (ow : ℚ)) ((th : ℚ) / (oh : ℚ)) ≤ (th : ℚ) := by
    have h1 : (oh : ℚ) * min ((tw : ℚ) / (ow : ℚ)) ((th : ℚ) / (oh : ℚ))
        ≤ (oh : ℚ) * ((th : ℚ) / (oh : ℚ)) :=
      mul_le_mul_of_nonneg_left (min_le_right _ _) (le_of_lt hohQ)
    calc (oh : ℚ) * min ((tw : ℚ) / (ow : ℚ)) ((th : ℚ) / (oh : ℚ))
        ≤ (oh : ℚ) * ((th : ℚ) / (oh : ℚ)) := h1
      _ = (th : ℚ) := by
          rw [mul_comm, div_mul_cancel₀ _ (ne_of_gt hohQ)]
  have hfw0 : 0 ≤ ⌊(ow : ℚ) * min ((tw : ℚ) / (ow : ℚ)) ((th : ℚ) / (oh : ℚ))⌋ :=
    Int.floor_nonneg.mpr hxw0
  have hfh0 : 0 ≤ ⌊(oh : ℚ) * min ((tw : ℚ) / (ow : ℚ)) ((th : ℚ) / (oh : ℚ))⌋ :=
    Int.floor_nonneg.mpr hxh0
  have hfwle : ⌊(ow : ℚ) * min ((tw : ℚ) / (ow : ℚ)) ((th : ℚ) / (oh : ℚ))⌋ ≤ (tw : Int) := by
    have := Int.floor_le_floor hwle
    rwa [Int.floor_natCast] at this
  have hfhle : ⌊(oh : ℚ) * min ((tw : ℚ) / (ow : ℚ)) ((th : ℚ) / (oh : ℚ))⌋ ≤ (th : Int) := by
    have := Int.floor_le_floor hhle
    rwa [Int.floor_natCast] at this
  refine ⟨⟨tw, th,
      (⌊(ow : ℚ) * min ((tw : ℚ) / (ow : ℚ)) ((th : ℚ) / (oh : ℚ))⌋).toNat,
      (⌊(oh : ℚ) * min ((tw : ℚ) / (ow : ℚ)) ((th : ℚ) / (oh : ℚ))⌋).toNat,
      (tw - (⌊(ow : ℚ) * min ((tw : ℚ) / (ow : ℚ)) ((th : ℚ) / (oh : ℚ))⌋).toNat) / 2,
      (th - (⌊(oh : ℚ) * min ((tw : ℚ) / (ow : ℚ)) ((th : ℚ) / (oh : ℚ))⌋).toNat) / 2⟩,
      ?_, rfl, rfl, rfl, rfl, rfl, rfl, ?_, ?_, ?_⟩
  · have hcond : ¬((⌊(ow : ℚ) * min ((tw : ℚ) / (ow : ℚ)) ((th : ℚ) / (oh : ℚ))⌋).toNat = 0
        ∨ (⌊(oh : ℚ) * min ((tw : ℚ) / (ow : ℚ)) ((th : ℚ) / (oh : ℚ))⌋).toNat = 0) := by
      omega
    simp only [pad_image]
    rw [if_neg how0, if_neg hoh0, if_neg hcond]
  · exact Int.toNat_le.mpr hfwle
  · exact Int.toNat_le.mpr hfhle
  · refine ⟨(ow : ℚ) * min ((tw : ℚ) / (ow : ℚ)) ((th : ℚ) / (oh : ℚ)),
           (oh : ℚ) * min ((tw : ℚ) / (ow : ℚ)) ((th : ℚ) / (oh : ℚ)),
           by ring, ?_, ?_, ?_, ?_⟩
    · have hcast : (((⌊(ow : ℚ) * min ((tw : ℚ) / (ow : ℚ)) ((th : ℚ) / (oh : ℚ))⌋).toNat : ℚ))
          = ((⌊(ow : ℚ) * min ((tw : ℚ) / (ow : ℚ)) ((th : ℚ) / (oh : ℚ))⌋ : ℚ)) := by
        exact_mod_cast congrArg (fun z : Int => (z : ℚ)) (Int.toNat_of_nonneg hfw0)
      rw [hcast]
      exact Int.sub_one_lt_floor _
    · have hcast : (((⌊(ow : ℚ) * min ((tw : ℚ) / (ow : ℚ)) ((th : ℚ) / (oh : ℚ))⌋).toNat : ℚ))
          = ((⌊(ow : ℚ) * min ((tw : ℚ) / (ow : ℚ)) ((th : ℚ) / (oh : ℚ))⌋ : ℚ)) := by
        exact_mod_cast congrArg (fun z : Int => (z : ℚ)) (Int.toNat_of_nonneg hfw0)
      rw [hcast]
      exact Int.floor_le _
    · have hcast : (((⌊(oh : ℚ) * min ((tw : ℚ) / (ow : ℚ)) ((th : ℚ) / (oh : ℚ))⌋).toNat : ℚ))
          = ((⌊(oh : ℚ) * min ((tw : ℚ) / (ow : ℚ)) ((th : ℚ) / (oh : ℚ))⌋ : ℚ)) := by
        exact_mod_cast congrArg (fun z : Int => (z : ℚ)) (Int.toNat_of_nonneg hfh0)
      rw [hcast]
      exact Int.sub_one_lt_floor _
    · have hcast : (((⌊(oh : ℚ) * min ((tw : ℚ) / (ow : ℚ)) ((th : ℚ) / (oh : ℚ))⌋).toNat : ℚ))
          = ((⌊(oh : ℚ) * min ((tw : ℚ) / (ow : ℚ)) ((th : ℚ) / (oh : ℚ))⌋ : ℚ)) := by
        exact_mod_cast congrArg (fun z : Int => (z : ℚ)) (Int.toNat_of_nonneg hfh0)
      rw [hcast]
      exact Int.floor_le _

/-- C1 witness: the theorem at the concrete source size 800×600 and target
1024×1024. -/
theorem pad_image_geometry_witness :
    1 ≤ 800 ∧ 1 ≤ 600
    ∧ 1 ≤ ⌊((800 : Nat) : ℚ)
          * min (((1024 : Nat) : ℚ) / ((800 : Nat) : ℚ))
                (((1024 : Nat) : ℚ) / ((600 : Nat) : ℚ))⌋
    ∧ 1 ≤ ⌊((600 : Nat) : ℚ)
          * min (((1024 : Nat) : ℚ) / ((800 : Nat) : ℚ))
                (((1024 : Nat) : ℚ) / ((600 : Nat) : ℚ))⌋
    ∧ (∃ p : Padded, pad_image 800 600 1024 1024 = .ok p
      ∧ p.canvasWidth = 1024 ∧ p.canvasHeight = 1024
      ∧ p.contentWidth
          = (⌊((800 : Nat) : ℚ)
              * min (((1024 : Nat) : ℚ) / ((800 : Nat) : ℚ))
                    (((1024 : Nat) : ℚ) / ((600 : Nat) : ℚ))⌋).toNat
      ∧ p.contentHeight
          = (⌊((600 : Nat) : ℚ)
              * min (((1024 : Nat) : ℚ) / ((800 : Nat) : ℚ))
                    (((1024 : Nat) : ℚ) / ((600 : Nat) : ℚ))⌋).toNat
      ∧ p.xOffset = (1024 - p.contentWidth) / 2
      ∧ p.yOffset = (1024 - p.contentHeight) / 2
      ∧ p.contentWidth ≤ 1024 ∧ p.contentHeight ≤ 1024
      ∧ ∃ w h : ℚ, w * ((600 : Nat) : ℚ) = h * ((800 : Nat) : ℚ)
          ∧ w - 1 < (p.contentWidth : ℚ) ∧ (p.contentWidth : ℚ) ≤ w
          ∧ h - 1 < (p.contentHeight : ℚ) ∧ (p.contentHeight : ℚ) ≤ h) :=
  ⟨by norm_num, by norm_num, by norm_num, by norm_num,
   pad_image_geometry 800 600 1024 1024 (by norm_num) (by norm_num)
     (by norm_num) (by norm_num)⟩

/-- C2: `balance_latex_delimiters` is the spec's one-pass scan — depth
counter from 0, `\left` increments, `\right` decrements when positive and is
deleted in place otherwise, then one `" \right."` closer per unit of
leftover depth; in particular a text with two orphan `\right` and no `\left`
loses both and retains no token, and a text with three `\left` and one
`\right` gains two appended closers. -/
theorem balance_scan_characterization :
    (∀ latex : List Char,
        balance_latex_delimiters latex
          = specKept latex 0 ++ closers (specDepth latex 0))
    ∧ balance_latex_delimiters ("a \\right b \\right c".toList)
        = ("a  b  c".toList)
    ∧ findCommands (balance_latex_delimiters ("a \\right b \\right c".toList)) 0 = []
    ∧ balance_latex_delimiters ("\\left(\\left[\\left(x\\right)".toList)
        = ("\\left(\\left[\\left(x\\right)".toList) ++ closers 2 :=
  ⟨balance_eq_spec, by decide, by decide, by decide⟩

/-- C3 counterexample: PyMuPDF resolves negative page indices by adding the
page count, so `extract_pdf_page_bytes` at index `-1` of a two-page document
renders the last page instead of failing. -/
theorem extract_negative_index_renders :
    ((-1 : Int) < 0 ∨ (([(⟨100, 100⟩ : PageRect), ⟨50, 60⟩] : List PageRect).length : Int) ≤ -1)
    ∧ extract_pdf_page_bytes [⟨100, 100⟩, ⟨50, 60⟩] (-1) 144
        = .ok ⟨1024, 1024, 853, 1024, 85, 0⟩ := by
  refine ⟨Or.inl (by norm_num), ?_⟩
  norm_num [extract_pdf_page_bytes, load_page_resolve, compute_zoom, render_pixmap,
    preprocess_image, flatten_to_rgb, pad_image, TARGET_IMAGE_SIZE, MAX_DIM]
  simp only [Int.reduceToNat]
  norm_num
  omega

/-- C3 amended: an index `≥ page_count` always fails with the
page-out-of-range error, but a negative index does not fail — PyMuPDF wraps
it (modulo the page count) and a real page is rendered. -/
theorem extract_page_index_policy :
    (∀ (doc : List PageRect) (idx : Int) (dpi : ℚ), (doc.length : Int) ≤ idx →
        extract_pdf_page_bytes doc idx dpi
          = .error (.loadPage .pageNotInDocument))
    ∧ (∀ (pc : Nat) (idx : Int), 0 < pc → idx < 0 →
        load_page_resolve pc idx = .ok (idx % (pc : Int)).toNat) := by
  constructor
  · intro doc idx dpi h
    unfold extract_pdf_page_bytes load_page_resolve
    rw [if_pos h]
  · intro pc idx h0 hneg
    unfold load_page_resolve
    rw [if_neg (by omega : ¬ ((pc : Int) ≤ idx)), if_pos hneg, if_pos h0]

/-- C3 amended witness: index 5 of a one-page document fails; index `-2` of a
three-page document resolves to page 1. -/
theorem extract_page_index_policy_witness :
    ((([(⟨10, 10⟩ : PageRect)] : List PageRect).length : Int) ≤ 5
      ∧ extract_pdf_page_bytes [⟨10, 10⟩] 5 144
          = .error (.loadPage .pageNotInDocument))
    ∧ (0 < 3 ∧ (-2 : Int) < 0
      ∧ load_page_resolve 3 (-2) = .ok ((-2 : Int) % ((3 : Nat) : Int)).toNat) :=
  ⟨⟨by norm_num, extract_page_index_policy.1 [⟨10, 10⟩] 5 144 (by norm_num)⟩,
   ⟨by norm_num, by norm_num,
    extract_page_index_policy.2 3 (-2) (by norm_num) (by norm_num)⟩⟩

/-- C4: the zoom is `dpi / 72`, recomputed as `MAX_DIM / max(w, h)` when a
dimension would exceed `MAX_DIM`, then clamped below by `0.5`; the rendered
larger extent never exceeds `MAX_DIM` except when the `0.5` floor forced the
zoom up. -/
theorem compute_zoom_cap (w h dpi : ℚ) (hw : 0 < w) (_hh : 0 < h)
    (hdpi : 0 < dpi) :
    compute_zoom w h dpi
      = max (if MAX_DIM < w * (dpi / 72) ∨ MAX_DIM < h * (dpi / 72) then
              MAX_DIM / max w h
            else dpi / 72) (1 / 2)
    ∧ (max w h * compute_zoom w h dpi ≤ MAX_DIM
        ∨ (compute_zoom w h dpi = 1 / 2
            ∧ (if MAX_DIM < w * (dpi / 72) ∨ MAX_DIM < h * (dpi / 72) then
                MAX_DIM / max w h
              else dpi / 72) < 1 / 2))
    ∧ (((render_pixmap ⟨w, h⟩ (compute_zoom w h dpi)).1 ≤ 3000
          ∧ (render_pixmap ⟨w, h⟩ (compute_zoom w h dpi)).2 ≤ 3000)
        ∨ compute_zoom w h dpi = 1 / 2) := by
  have hzb0 : (0 : ℚ) < dpi / 72 := by positivity
  have hmax0 : (0 : ℚ) < max w h := lt_of_lt_of_le hw (le_max_left w h)
  have hz0 : (0 : ℚ) < compute_zoom w h dpi := by
    have h12 : (1 / 2 : ℚ)
        ≤ max (if MAX_DIM < w * (dpi / 72) ∨ MAX_DIM < h * (dpi / 72) then
            MAX_DIM / max w h
          else dpi / 72) (1 / 2) := le_max_right _ _
    have : (0 : ℚ) < (1 / 2 : ℚ) := by norm_num
    exact lt_of_lt_of_le this h12
  have hmain : max w h * compute_zoom w h dpi ≤ MAX_DIM
      ∨ (compute_zoom w h dpi = 1 / 2
          ∧ (if MAX_DIM < w * (dpi / 72) ∨ MAX_DIM < h * (dpi / 72) then
              MAX_DIM / max w h
            else dpi / 72) < 1 / 2) := by
    rw [show compute_zoom w h dpi
        = max (if MAX_DIM < w * (dpi / 72) ∨ MAX_DIM < h * (dpi / 72) then
            MAX_DIM / max w h
          else dpi / 72) (1 / 2) from rfl]
    by_cases hcap : MAX_DIM < w * (dpi / 72) ∨ MAX_DIM < h * (dpi / 72)
    · rw [if_pos hcap]
      by_cases hlow : MAX_DIM / max w h < 1 / 2
      · exact Or.inr ⟨max_eq_right (le_of_lt hlow), hlow⟩
      · left
        push_neg at hlow
        rw [max_eq_left hlow, mul_comm, div_mul_cancel₀ _ (ne_of_gt hmax0)]
    · rw [if_neg hcap]
      push_neg at hcap
      obtain ⟨h1, h2⟩ := hcap
      by_cases hlow : dpi / 72 < 1 / 2
      · exact Or.inr ⟨max_eq_right (le_of_lt hlow), hlow⟩
      · left
        push_neg at hlow
        rw [max_eq_left hlow]
        calc max w h * (dpi / 72)
            = max (w * (dpi / 72)) (h * (dpi / 72)) :=
              max_mul_of_nonneg _ _ (le_of_lt hzb0)
          _ ≤ MAX_DIM := max_le h1 h2
  refine ⟨rfl, hmain, ?_⟩
  rcases hmain with hb | hz
  · left
    have hw' : w * compute_zoom w h dpi ≤ MAX_DIM :=
      le_trans (mul_le_mul_of_nonneg_right (le_max_left w h) (le_of_lt hz0)) hb
    have hh' : h * compute_zoom w h dpi ≤ MAX_DIM :=
      le_trans (mul_le_mul_of_nonneg_right (le_max_right w h) (le_of_lt hz0)) hb
    constructor
    · have h3 : ⌊w * compute_zoom w h dpi⌋ ≤ (3000 : Int) := by
        have := Int.floor_le_floor hw'
        rwa [show ⌊MAX_DIM⌋ = (3000 : Int) from by norm_num [MAX_DIM]] at this
      exact Int.toNat_le.mpr h3
    · have h3 : ⌊h * compute_zoom w h dpi⌋ ≤ (3000 : Int) := by
        have := Int.floor_le_floor hh'
        rwa [show ⌊MAX_DIM⌋ = (3000 : Int) from by norm_num [MAX_DIM]] at this
      exact Int.toNat_le.mpr h3
  · exact Or.inr hz.1

/-- C4 witness: the theorem at a 600×800 page and 144 dpi (zoom 2, no cap,
no clamping, raster 1200×1600 within the 3000 bound). -/
theorem compute_zoom_cap_witness :
    (0 : ℚ) < 600 ∧
    (compute_zoom 600 800 144
      = max (if MAX_DIM < 600 * ((144 : ℚ) / 72) ∨ MAX_DIM < 800 * ((144 : ℚ) / 72) then
              MAX_DIM / max (600 : ℚ) 800
            else (144 : ℚ) / 72) (1 / 2)
    ∧ (max (600 : ℚ) 800 * compute_zoom 600 800 144 ≤ MAX_DIM
        ∨ (compute_zoom 600 800 144 = 1 / 2
            ∧ (if MAX_DIM < 600 * ((144 : ℚ) / 72) ∨ MAX_DIM < 800 * ((144 : ℚ) / 72) then
                MAX_DIM / max (600 : ℚ) 800
              else (144 : ℚ) / 72) < 1 / 2))
    ∧ (((render_pixmap ⟨600, 800⟩ (compute_zoom 600 800 144)).1 ≤ 3000
          ∧ (render_pixmap ⟨600, 800⟩ (compute_zoom 600 800 144)).2 ≤ 3000)
        ∨ compute_zoom 600 800 144 = 1 / 2)) :=
  ⟨by norm_num,
   compute_zoom_cap 600 800 144 (by norm_num) (by norm_num) (by norm_num)⟩

/-- C5 counterexample: when the pipeline raises on nonempty input, the
handler only prints — the display keeps the previous document; it is not set
to the blank document the claim requires. -/
theorem set_markdown_error_not_blank :
    set_markdown ['a'] (fun _ => .error .renderFailure) = DisplayState.unchanged
    ∧ DisplayState.unchanged ≠ DisplayState.blank :=
  ⟨rfl, by decide⟩

/-- C5 amended: `set_markdown` never propagates an exception and never shows
a partial document — on empty input it sets the blank document, on pipeline
success it sets the fully assembled document, and on a pipeline exception it
leaves the previously displayed document unchanged (not blank). -/
theorem set_markdown_degrades (md : List Char)
    (pipeline : List Char → Except RenderError (List Char)) :
    (md = [] → set_markdown md pipeline = .blank)
    ∧ (∀ e, md ≠ [] → pipeline md = .error e →
        set_markdown md pipeline = .unchanged)
    ∧ (∀ html, md ≠ [] → pipeline md = .ok html →
        set_markdown md pipeline = .document html) := by
  refine ⟨?_, ?_, ?_⟩
  · intro h
    unfold set_markdown
    rw [if_pos h]
  · intro e hne hp
    unfold set_markdown
    rw [if_neg hne, hp]
  · intro html hne hp
    unfold set_markdown
    rw [if_neg hne, hp]

/-- C5 amended witness: the three regimes at concrete inputs. -/
theorem set_markdown_degrades_witness :
    (([] : List Char) = [] ∧ set_markdown [] (fun s => .ok s) = .blank)
    ∧ (['x'] ≠ ([] : List Char)
      ∧ set_markdown ['x'] (fun _ => .error .renderFailure) = .unchanged)
    ∧ (['x'] ≠ ([] : List Char)
      ∧ set_markdown ['x'] (fun s => .ok s) = .document ['x']) :=
  ⟨⟨rfl, (set_markdown_degrades [] (fun s => .ok s)).1 rfl⟩,
   ⟨by decide, (set_markdown_degrades ['x'] (fun _ => .error .renderFailure)).2.1
      .renderFailure (by decide) rfl⟩,
   ⟨by decide, (set_markdown_degrades ['x'] (fun s => .ok s)).2.2
      ['x'] (by decide) rfl⟩⟩

/-- C6 counterexample: removing the orphan `\right` from `"\le\rightft"`
splices the surrounding text into a brand-new `\left` token, so the output
of balancing is not a fixed point: balancing it again appends a closer. -/
theorem balance_not_idempotent :
    balance_latex_delimiters
        (balance_latex_delimiters ("\\le\\rightft".toList))
      ≠ balance_latex_delimiters ("\\le\\rightft".toList) := by
  decide

/-- C6 amended: a text whose scan meets no orphan `\right` and ends at depth
zero is returned unchanged, and on any text without orphan `\right`
occurrences (so the deletion step never splices new tokens) balancing is
idempotent. -/
theorem balance_idempotent_on_clean :
    (∀ s : List Char, specNoOrphan s 0 = true → specDepth s 0 = 0 →
        balance_latex_delimiters s = s)
    ∧ (∀ s : List Char, specNoOrphan s 0 = true →
        balance_latex_delimiters (balance_latex_delimiters s)
          = balance_latex_delimiters s) := by
  constructor
  · intro s h1 h2
    rw [balance_clean s h1, h2]
    simp [closers]
  · intro s h1
    obtain ⟨hno, hdep, hkept⟩ := balance_out_clean s h1
    rw [balance_eq_spec (balance_latex_delimiters s), hkept, hdep]
    simp [closers]

/-- C6 amended witness: a fully matched text is a fixed point, and balancing
is idempotent on it. -/
theorem balance_idempotent_on_clean_witness :
    specNoOrphan ("\\left(x\\right)".toList) 0 = true
    ∧ balance_latex_delimiters ("\\left(x\\right)".toList)
        = ("\\left(x\\right)".toList)
    ∧ balance_latex_delimiters
          (balance_latex_delimiters ("\\left(x\\right)".toList))
        = balance_latex_delimiters ("\\left(x\\right)".toList) :=
  ⟨by decide,
   balance_idempotent_on_clean.1 ("\\left(x\\right)".toList) (by decide) (by decide),
   balance_idempotent_on_clean.2 ("\\left(x\\right)".toList) (by decide)⟩

/-- C7 counterexample: `pad_image` on a zero source width raises Python's
`ZeroDivisionError` (the division the claim says is avoided); no
`InvalidGeometry` error exists in the code. -/
theorem pad_image_zero_dim_divides :
    pad_image 0 5 1024 1024 = .error GeomError.zeroDivision
    ∧ pad_image 0 5 1024 1024 ≠ .error GeomError.invalidGeometry := by
  decide

/-- C7 amended: a zero source dimension makes `pad_image` fail by dividing by
zero (`ZeroDivisionError`), not with an `InvalidGeometry` error. -/
theorem pad_image_zero_dim_raises (ow oh tw th : Nat) (h : ow = 0 ∨ oh = 0) :
    pad_image ow oh tw th = .error GeomError.zeroDivision := by
  unfold pad_image
  by_cases how : ow = 0
  · rw [if_pos how]
  · rw [if_neg how, if_pos (h.resolve_left how)]

/-- C7 amended witness. -/
theorem pad_image_zero_dim_raises_witness :
    ((0 : Nat) = 0 ∨ (7 : Nat) = 0)
    ∧ pad_image 0 7 64 64 = .error GeomError.zeroDivision :=
  ⟨Or.inl rfl, pad_image_zero_dim_raises 0 7 64 64 (Or.inl rfl)⟩

/-- C8 counterexample: a degenerate page rectangle makes preprocessing fail
inside `extract_pdf_page_bytes`, and the failure propagates — no raw-bytes
fallback output is produced on the PDF path. -/
theorem extract_failure_propagates :
    extract_pdf_page_bytes [⟨0, 100⟩] 0 144
      = .error (.preprocess .zeroDivision) := by
  norm_num [extract_pdf_page_bytes, load_page_resolve, compute_zoom, render_pixmap,
    preprocess_image, flatten_to_rgb, pad_image, TARGET_IMAGE_SIZE, MAX_DIM]

/-- C8 amended: `get_image_bytes` always produces an output, falling back to
the raw file bytes when decoding or preprocessing fails; but
`extract_pdf_page_bytes` has no such fallback — a preprocessing failure
propagates as an error. -/
theorem ingest_fallback_policy :
    (∀ (e : DecodeError) (raw : List Nat), get_image_bytes (.error e) raw = .raw raw)
    ∧ (∀ (img : Img) (raw : List Nat) (ge : GeomError),
        preprocess_image img = .error ge → get_image_bytes (.ok img) raw = .raw raw)
    ∧ (∀ (doc : List PageRect) (idx : Int) (dpi : ℚ) (n : Nat) (r : PageRect)
        (ge : GeomError),
        load_page_resolve doc.length idx = .ok n →
        doc.get? n = some r →
        preprocess_image
            ⟨(render_pixmap r (compute_zoom r.width r.height dpi)).1,
             (render_pixmap r (compute_zoom r.width r.height dpi)).2, .RGB⟩
          = .error ge →
        extract_pdf_page_bytes doc idx dpi = .error (.preprocess ge)) := by
  refine ⟨fun e raw => rfl, ?_, ?_⟩
  · intro img raw ge h
    simp only [get_image_bytes, h]
  · intro doc idx dpi n r ge h1 h2 h3
    simp only [extract_pdf_page_bytes, h1, h2, h3]

/-- C8 amended witness: the image fallback at a failing image, and the PDF
propagation at the degenerate page. -/
theorem ingest_fallback_policy_witness :
    get_image_bytes (.error .unreadable) [7, 7] = .raw [7, 7]
    ∧ (preprocess_image ⟨0, 9, .RGB⟩ = .error .zeroDivision
      ∧ get_image_bytes (.ok ⟨0, 9, .RGB⟩) [7, 7] = .raw [7, 7])
    ∧ (load_page_resolve ([(⟨0, 100⟩ : PageRect)] : List PageRect).length 0 = .ok 0
      ∧ extract_pdf_page_bytes [⟨0, 100⟩] 0 144 = .error (.preprocess .zeroDivision)) :=
  ⟨ingest_fallback_policy.1 .unreadable [7, 7],
   ⟨by decide, ingest_fallback_policy.2.1 ⟨0, 9, .RGB⟩ [7, 7] .zeroDivision (by decide)⟩,
   ⟨by decide, ingest_fallback_policy.2.2 [⟨0, 100⟩] 0 144 0 ⟨0, 100⟩ .zeroDivision
      (by decide) (by decide)
      (by norm_num [compute_zoom, render_pixmap, preprocess_image, flatten_to_rgb,
        pad_image, TARGET_IMAGE_SIZE, MAX_DIM])⟩⟩

/-- C9: the core transformations are pure functions of their input — two runs
of the preprocessing pipeline on equal images give equal outputs, and two
runs of the balancer on equal texts give equal texts. -/
theorem deterministic_pipelines :
    (∀ i j : Img, i = j → preprocess_image i = preprocess_image j)
    ∧ (∀ s t : List Char, s = t →
        balance_latex_delimiters s = balance_latex_delimiters t) :=
  ⟨fun i j h => by rw [h], fun s t h => by rw [h]⟩

/-- C9 witness. -/
theorem deterministic_pipelines_witness :
    (Img.mk 10 20 .RGB = Img.mk 10 20 .RGB)
    ∧ preprocess_image ⟨10, 20, .RGB⟩ = preprocess_image ⟨10, 20, .RGB⟩
    ∧ balance_latex_delimiters ("x".toList) = balance_latex_delimiters ("x".toList) :=
  ⟨rfl, deterministic_pipelines.1 ⟨10, 20, .RGB⟩ ⟨10, 20, .RGB⟩ rfl,
   deterministic_pipelines.2 ("x".toList) ("x".toList) rfl⟩

/-- C10 counterexample: removing the orphan `\right` from `"\ri\rightght"`
splices a new `\right` token into the output, so re-scanning the output
marks a token for removal — the output is not fully balanced. -/
theorem balance_output_unbalanced :
    markRemove
        (findCommands (balance_latex_delimiters ("\\ri\\rightght".toList)) 0) 0
      ≠ ([], 0) := by
  decide

/-- C10 amended: on texts without orphan `\right` occurrences (where the
deletion step never splices new tokens), the output is fully balanced:
re-scanning it marks nothing for removal, ends at depth zero, and the
output has equally many `\left` and `\right` tokens. -/
theorem balance_output_balanced_on_clean (s : List Char)
    (h : specNoOrphan s 0 = true) :
    markRemove (findCommands (balance_latex_delimiters s) 0) 0 = ([], 0)
    ∧ countLeftTok (balance_latex_delimiters s)
        = countRightTok (balance_latex_delimiters s) := by
  obtain ⟨hno, hdep, _⟩ := balance_out_clean s h
  constructor
  · have h1 := markRemove_fst_nil_of_noOrphan (balance_latex_delimiters s) 0 0 hno
    have h2 := markRemove_snd_eq_specDepth (balance_latex_delimiters s) 0 0
    rw [hdep] at h2
    exact Prod.ext h1 h2
  · have hc := count_of_noOrphan (balance_latex_delimiters s) 0 hno
    rw [hdep] at hc
    omega

/-- C10 amended witness: a text with two open `\left` groups. -/
theorem balance_output_balanced_on_clean_witness :
    specNoOrphan ("\\left( \\left[ x".toList) 0 = true
    ∧ markRemove
        (findCommands (balance_latex_delimiters ("\\left( \\left[ x".toList)) 0) 0
        = ([], 0)
    ∧ countLeftTok (balance_latex_delimiters ("\\left( \\left[ x".toList))
        = countRightTok (balance_latex_delimiters ("\\left( \\left[ x".toList)) :=
  ⟨by decide,
   (balance_output_balanced_on_clean ("\\left( \\left[ x".toList) (by decide)).1,
   (balance_output_balanced_on_clean ("\\left( \\left[ x".toList) (by decide)).2⟩

end LocalAIOCR
